import Mathlib

/-!
# Verification of the chuckOS file-intelligence engine

A shallow embedding of the file-intelligence subsystem of chuckOS
(`jaymi_file_intelligence.py` and `backend/core/file_intelligence.py`):
file categorization, the five search strategies, result merging and
deduplication, relevance ranking, organization-preference learning, and
auto-organization.

Strings are modelled as lists of characters (`Str`), file sizes as `Nat`
(bytes), modification times as `Int` (epoch seconds), and relevance
scores as `ℚ` (the Python floats involved are sums of small constants and
one learned ratio; `ℚ` models the arithmetic exactly).
-/

namespace ChuckFI

/-- Strings, as character lists (Python `str`). -/
abbrev Str := List Char

/-- Python `str.lower()` on our character-list strings. -/
def toLowerL (s : Str) : Str := s.map Char.toLower

/-- Python's substring test `needle in haystack`: `occursIn n h = true` iff
`n` occurs contiguously inside `h`. -/
def occursIn (needle : Str) : Str → Bool
  | [] => needle.isEmpty
  | c :: t => needle.isPrefixOf (c :: t) || occursIn needle t

/-- Fuel-driven worker for `wsSplit` (fuel keeps the recursion structural,
so that terms evaluate inside the kernel). -/
def wsSplitF : Nat → Str → List Str
  | 0, _ => []
  | _ + 1, [] => []
  | n + 1, c :: t =>
    if c.isWhitespace then
      wsSplitF n t
    else
      (c :: t.takeWhile (fun d => !d.isWhitespace)) ::
        wsSplitF n (t.dropWhile (fun d => !d.isWhitespace))

/-- Python `str.split()` with no argument: maximal runs of non-whitespace
characters; never produces empty words. -/
def wsSplit (s : Str) : List Str := wsSplitF s.length s

/-- A file entry as observed by one scan: the fields of a `pathlib.Path`
plus its `stat` data that the engine reads. `parent` is `str(path.parent)`
(the whole parent path), `parentName` is `path.parent.name` (just the last
segment), `name` is the basename, `ext` is `path.suffix`, `content` is the
text content as decoded with `errors='ignore'`. -/
structure FileEntry where
  parent : Str
  parentName : Str
  name : Str
  ext : Str
  size : Nat
  mtime : Int
  content : Str
deriving DecidableEq

/-- The canonical absolute path of an entry (`str(path)`), used as the
deduplication key: `pathlib.Path` objects compare equal iff their paths do. -/
def fullPath (e : FileEntry) : Str := e.parent ++ '/' :: e.name

/-- The fixed extension→category table `self.file_categories`. -/
def fileCategories : List (Str × List Str) :=
  [ ("images".data, [".jpg".data, ".jpeg".data, ".png".data, ".gif".data,
      ".bmp".data, ".tiff".data, ".webp".data, ".svg".data]),
    ("documents".data, [".pdf".data, ".doc".data, ".docx".data, ".txt".data,
      ".md".data, ".rtf".data, ".odt".data]),
    ("spreadsheets".data, [".xls".data, ".xlsx".data, ".csv".data, ".ods".data]),
    ("presentations".data, [".ppt".data, ".pptx".data, ".odp".data]),
    ("audio".data, [".mp3".data, ".wav".data, ".flac".data, ".aac".data,
      ".ogg".data, ".m4a".data]),
    ("video".data, [".mp4".data, ".avi".data, ".mkv".data, ".mov".data,
      ".wmv".data, ".flv".data, ".webm".data]),
    ("archives".data, [".zip".data, ".rar".data, ".7z".data, ".tar".data,
      ".gz".data, ".bz2".data]),
    ("code".data, [".py".data, ".js".data, ".html".data, ".css".data,
      ".cpp".data, ".java".data, ".php".data, ".rb".data]),
    ("data".data, [".json".data, ".xml".data, ".yaml".data, ".sql".data,
      ".db".data, ".sqlite".data]) ]

/-- `categorize_file`: first category whose extension list contains the
lowercased suffix; `other` when none matches. -/
def categorize (e : FileEntry) : Str :=
  match fileCategories.find? (fun kc => decide (toLowerL e.ext ∈ kc.2)) with
  | some kc => kc.1
  | none => "other".data

/-- One learned organization preference
(`organization_preferences[category]`). -/
structure Pref where
  location : Str
  confidence : ℚ
deriving DecidableEq

/-- The learned preference table, keyed by category name. Modelled as a
lookup function (Python: a dict; `c ∈ dict` iff the lookup is `some`). -/
abbrev PrefTable := Str → Option Pref

/-- The empty preference table. -/
def noPrefs : PrefTable := fun _ => none

/-! ## Search strategies

Each strategy receives the lowercased query and the flat sequence of file
entries produced by walking the (existing) search roots with `rglob`. -/

/-- `search_by_filename`: non-empty files whose lowercase basename contains
the query. -/
def searchByFilename (query : Str) (files : List FileEntry) : List FileEntry :=
  files.filter (fun f => decide (0 < f.size) && occursIn query (toLowerL f.name))

/-- The fixed text-like extension allow-list of `search_by_content_keywords`. -/
def textExtensions : List Str :=
  [".txt".data, ".md".data, ".py".data, ".js".data, ".html".data,
   ".css".data, ".json".data]

/-- The guard under which `search_by_content_keywords` opens a file:
text-like extension, non-empty, and strictly under 1 MiB. -/
def textGuard (e : FileEntry) : Bool :=
  decide (toLowerL e.ext ∈ textExtensions) && decide (0 < e.size) &&
    decide (e.size < 1048576)

/-- `search_by_content_keywords`, instrumented: returns the matching files
(first component) and the files that were actually opened and read (second
component). A file is opened exactly when `textGuard` holds for it. -/
def contentSearchTrace (query : Str) : List FileEntry → List FileEntry × List FileEntry
  | [] => ([], [])
  | e :: es =>
    let rest := contentSearchTrace query es
    if textGuard e then
      (if occursIn query (toLowerL e.content) then e :: rest.1 else rest.1,
       e :: rest.2)
    else rest

/-- `search_by_content_keywords`: the files returned to the caller. -/
def searchByContentKeywords (query : Str) (files : List FileEntry) : List FileEntry :=
  (contentSearchTrace query files).1

/-- The `type_keywords` dictionary of `search_by_file_type`, in its fixed
(insertion) iteration order. -/
def typeKeywords : List (Str × Str) :=
  [ ("photo".data, "images".data), ("picture".data, "images".data),
    ("image".data, "images".data),
    ("document".data, "documents".data), ("doc".data, "documents".data),
    ("text".data, "documents".data),
    ("music".data, "audio".data), ("song".data, "audio".data),
    ("audio".data, "audio".data),
    ("video".data, "video".data), ("movie".data, "video".data),
    ("code".data, "code".data), ("script".data, "code".data),
    ("program".data, "code".data) ]

/-- `self.file_categories[category]` (dict lookup by key). -/
def lookupExts (c : Str) : List Str :=
  match fileCategories.find? (fun kc => decide (kc.1 = c)) with
  | some kc => kc.2
  | none => []

/-- `search_by_file_type`: the first keyword (in dictionary iteration
order) found in the query selects the category; all non-empty files of
that category are returned. No keyword: no results. -/
def searchByFileType (query : Str) (files : List FileEntry) : List FileEntry :=
  match typeKeywords.find? (fun kc => occursIn kc.1 query) with
  | some kc =>
      files.filter (fun f =>
        decide (0 < f.size) && decide (toLowerL f.ext ∈ lookupExts kc.2))
  | none => []

/-- Date-context keyword buckets of `search_by_date_context`. -/
def recentWords : List Str :=
  ["today".data, "recent".data, "new".data, "latest".data]

/-- Old-file keyword bucket of `search_by_date_context`. -/
def oldWords : List Str := ["old".data, "archive".data, "backup".data]

/-- `search_by_date_context`: recent bucket (modified after `now` minus
7 days) checked first, else the old bucket (modified before `now` minus
90 days), else no results. `mtime` comparisons are in epoch seconds. -/
def searchByDateContext (query : Str) (files : List FileEntry) (now : Int) :
    List FileEntry :=
  if recentWords.any (fun w => occursIn w query) then
    files.filter (fun f =>
      decide (0 < f.size) && decide (now - 7 * 86400 < f.mtime))
  else if oldWords.any (fun w => occursIn w query) then
    files.filter (fun f =>
      decide (0 < f.size) && decide (f.mtime < now - 90 * 86400))
  else []

/-- Large-file keyword bucket of `search_by_size_context`. -/
def largeWords : List Str := ["large".data, "big".data, "huge".data]

/-- Small-file keyword bucket of `search_by_size_context`. -/
def smallWords : List Str := ["small".data, "tiny".data]

/-- `search_by_size_context`: large bucket (size over 10 MiB) checked
first, else the small bucket (size strictly between 0 and 100 KiB),
else no results. -/
def searchBySizeContext (query : Str) (files : List FileEntry) : List FileEntry :=
  if largeWords.any (fun w => occursIn w query) then
    files.filter (fun f => decide (10485760 < f.size))
  else if smallWords.any (fun w => occursIn w query) then
    files.filter (fun f => decide (0 < f.size) && decide (f.size < 102400))
  else []

/-! ## Scanning, merging, ranking -/

/-- One search/scan root: its directory name (`scan_dir.name`), whether it
exists, and the file entries its recursive walk yields, in discovery
order. -/
structure Root where
  name : Str
  exist : Bool
  files : List FileEntry
deriving DecidableEq

/-- The flat file sequence seen by every strategy: each existing root's
files, in root order. -/
def scanFiles (roots : List Root) : List FileEntry :=
  (roots.filter (fun r => r.exist)).flatMap (fun r => r.files)

/-- `found_files` in `smart_file_search`: the concatenation of the five
strategies' results, in strategy order. -/
def allCandidates (now : Int) (query : Str) (roots : List Root) : List FileEntry :=
  searchByFilename query (scanFiles roots) ++
  searchByContentKeywords query (scanFiles roots) ++
  searchByFileType query (scanFiles roots) ++
  searchByDateContext query (scanFiles roots) now ++
  searchBySizeContext query (scanFiles roots)

/-- First-seen deduplication keyed by `key` (the `seen`-set loop of
`smart_file_search`): keeps the first entry carrying each key, preserving
order. -/
def dedupBy {α β : Type} [DecidableEq β] (key : α → β) : List β → List α → List α
  | _, [] => []
  | seen, x :: xs =>
    if key x ∈ seen then dedupBy key seen xs
    else x :: dedupBy key (key x :: seen) xs

/-- `unique_files`: the candidates deduplicated by canonical path. -/
def mergedCandidates (now : Int) (query : Str) (roots : List Root) : List FileEntry :=
  dedupBy fullPath [] (allCandidates now query roots)

/-- Index of the first element of the list whose key is `k` (list length
when absent); used to state first-seen ordering. -/
def firstIdxBy {α β : Type} [DecidableEq β] (key : α → β) (k : β) : List α → Nat
  | [] => 0
  | x :: xs => if key x = k then 0 else firstIdxBy key k xs + 1

/-- The relevance score of `rank_search_results`, computed exactly as the
code does, in statement order: exact-basename bonus (else substring
bonus), the per-word loop folding `+2.0` into the accumulator, the
recency bonus on `(now - mtime).days` (timedelta days, i.e. a flooring
division by 86400), and the learned-location bonus. -/
def scoreOf (now : Int) (prefs : PrefTable) (query : Str) (e : FileEntry) : ℚ :=
  let filenameLower := toLowerL e.name
  let s1 : ℚ :=
    if query = filenameLower then 10
    else if occursIn query filenameLower then 5
    else 0
  let s2 : ℚ :=
    (wsSplit query).foldl
      (fun acc w => if occursIn w filenameLower then acc + 2 else acc) s1
  let daysOld : Int := (now - e.mtime).fdiv 86400
  let s3 : ℚ :=
    if daysOld < 7 then s2 + 1 else if daysOld < 30 then s2 + 1 / 2 else s2
  match prefs (categorize e) with
  | some p => if occursIn p.location e.parent then s3 + p.confidence else s3
  | none => s3

/-- `scored_files`: the entries whose score is strictly positive, paired
with their scores, in input order. -/
def scoredList (now : Int) (prefs : PrefTable) (query : Str)
    (files : List FileEntry) : List (FileEntry × ℚ) :=
  files.filterMap (fun e =>
    if 0 < scoreOf now prefs query e then some (e, scoreOf now prefs query e)
    else none)

/-- Stable insertion into a list sorted by score descending: the new
element goes in front of the first element whose score is not larger
(equal-score elements that were later in the input stay behind it). -/
def insertDesc (x : FileEntry × ℚ) : List (FileEntry × ℚ) → List (FileEntry × ℚ)
  | [] => [x]
  | y :: ys => if y.2 ≤ x.2 then x :: y :: ys else y :: insertDesc x ys

/-- Stable sort by score descending; the unique reordering produced by
Python's stable `sorted(..., key=score, reverse=True)`. -/
def sortDesc : List (FileEntry × ℚ) → List (FileEntry × ℚ)
  | [] => []
  | x :: xs => insertDesc x (sortDesc xs)

/-- `rank_search_results`: positive-score filtering followed by the stable
descending sort. -/
def rank (now : Int) (prefs : PrefTable) (query : Str)
    (files : List FileEntry) : List (FileEntry × ℚ) :=
  sortDesc (scoredList now prefs query files)

/-- `smart_file_search` after the strategy loop: merge, dedup, rank. -/
def smartSearch (now : Int) (prefs : PrefTable) (query : Str)
    (roots : List Root) : List (FileEntry × ℚ) :=
  rank now prefs query (mergedCandidates now query roots)

/-! ## Preference learning (`analyze_file_system` + `learn_organization_patterns`) -/

/-- `location_patterns[c]`: for every non-empty file of category `c` found
while scanning the existing roots, the *scan root's* name (the code
records `str(scan_dir.name)`, not the file's own parent), in scan order. -/
def observedLocs (roots : List Root) (c : Str) : List Str :=
  (roots.filter (fun r => r.exist)).flatMap (fun r =>
    r.files.filterMap (fun f =>
      if 0 < f.size ∧ categorize f = c then some r.name else none))

/-- Helper for `mostCommon`: scans candidate values right-to-left keeping
the one with the larger count, preferring the earlier candidate on ties. -/
def bestOf (l : List Str) : List Str → Option (Str × Nat)
  | [] => none
  | x :: xs =>
    match bestOf l xs with
    | none => some (x, l.count x)
    | some yc => if yc.2 ≤ l.count x then some (x, l.count x) else some yc

/-- `Counter(l).most_common(1)[0]`: the first-encountered value of maximal
multiplicity, with its count (`Counter` preserves first-occurrence order
and `most_common`'s sort is stable). -/
def mostCommon (l : List Str) : Option (Str × Nat) :=
  bestOf l (dedupBy id [] l)

/-- The preference `learn_organization_patterns` derives for category `c`
from one analysis pass: the modal observed location with confidence
`count / total`; `none` when the category was never observed. -/
def learnedPref (roots : List Root) (c : Str) : Option Pref :=
  match mostCommon (observedLocs roots c) with
  | some lc => some ⟨lc.1, (lc.2 : ℚ) / ((observedLocs roots c).length : ℚ)⟩
  | none => none

/-- The preference table after a full analysis pass: observed categories
are overwritten, unobserved ones keep their old record. -/
def learnUpdate (old : PrefTable) (roots : List Root) : PrefTable :=
  fun c =>
    match learnedPref roots c with
    | some p => some p
    | none => old c

/-! ## Auto-organization (`auto_organize_files`) -/

/-- The name of the directory whose listing `auto_organize_files`
processes (it always organizes `~/Downloads`), i.e. the current parent of
every candidate file. -/
def downloadsName : Str := "Downloads".data

/-- The keys of `location_mapping`: the only preferred locations the
organizer can move a file to. -/
def locationMapping : List Str :=
  ["Documents".data, "Pictures".data, "Music".data, "Videos".data]

/-- `auto_organize_files` over the Downloads listing: for each non-empty
file whose category has a learned preference whose location is one of the
mapped directories, a move of that file to that location; all other files
are left in place. -/
def autoOrganize (files : List FileEntry) (prefs : PrefTable) :
    List (FileEntry × Str) :=
  files.filterMap (fun f =>
    if 0 < f.size then
      match prefs (categorize f) with
      | some p => if p.location ∈ locationMapping then some (f, p.location) else none
      | none => none
    else none)

/-! ## Error model (per-file I/O failures)

`RawFile` pairs an entry with whether its `stat()` call succeeds
(`statOk`; a vanished or permission-denied file makes it fail) and
whether opening and reading it succeeds (`readOk`). Uncaught exceptions
are modelled with `Except`. -/

/-- A directory-walk item together with the success/failure of the two
I/O operations the engine performs on it. -/
structure RawFile where
  entry : FileEntry
  statOk : Bool
  readOk : Bool
deriving DecidableEq

/-- `search_by_filename` with fallible `stat`: the code has no per-file
exception handler here, so a failing `stat` propagates (`Except.error`)
and aborts the whole strategy. -/
def searchByFilenameE (query : Str) : List RawFile → Except Unit (List FileEntry)
  | [] => Except.ok []
  | r :: rs =>
    if r.statOk then
      match searchByFilenameE query rs with
      | Except.ok rest =>
          if decide (0 < r.entry.size) && occursIn query (toLowerL r.entry.name)
          then Except.ok (r.entry :: rest)
          else Except.ok rest
      | Except.error u => Except.error u
    else Except.error ()

/-- `search_by_content_keywords` with fallible I/O: the guard's `stat`
calls are outside the `try`, so a failing `stat` propagates; the
open/read is inside `try ... except: continue`, so a failing read only
skips that file. -/
def contentSearchE (query : Str) : List RawFile → Except Unit (List FileEntry)
  | [] => Except.ok []
  | r :: rs =>
    if r.statOk then
      match contentSearchE query rs with
      | Except.ok rest =>
          if textGuard r.entry then
            if r.readOk then
              if occursIn query (toLowerL r.entry.content)
              then Except.ok (r.entry :: rest)
              else Except.ok rest
            else Except.ok rest
          else Except.ok rest
      | Except.error u => Except.error u
    else Except.error ()

/-- The per-file loop of `analyze_file_system`: each file's stat runs
inside `try ... except (OSError, PermissionError): continue`, so a
failing file is skipped and the analysis keeps the rest; empty files are
skipped by the zero-size filter. Returns the entries that get counted. -/
def analyzeObserved : List RawFile → List FileEntry
  | [] => []
  | r :: rs =>
    if r.statOk then
      if 0 < r.entry.size then r.entry :: analyzeObserved rs
      else analyzeObserved rs
    else analyzeObserved rs

/-! ## Definitions modelled from the spec's words (for refinement claims) -/

/-- The location-affinity term of the claimed formula: the learned
confidence of the file's category whenever the learned preferred location
occurs in the file's parent path string, else `0`. -/
def prefBonus (prefs : PrefTable) (e : FileEntry) : ℚ :=
  match prefs (categorize e) with
  | some p => if occursIn p.location e.parent then p.confidence else 0
  | none => 0

/-- The scoring formula exactly as claim C1 words it: an additive sum of
the exact-or-substring bonus, `2` per matching whitespace-split query
word, the recency bonus stated over "modified within the last 7/30 days"
(in seconds), and the preference-confidence bonus. -/
def claimScore (now : Int) (prefs : PrefTable) (query : Str) (e : FileEntry) : ℚ :=
  (if query = toLowerL e.name then 10
   else if occursIn query (toLowerL e.name) then 5 else 0)
  + 2 * (((wsSplit query).countP (fun w => occursIn w (toLowerL e.name))) : ℚ)
  + (if now - e.mtime < 7 * 86400 then 1
     else if now - e.mtime < 30 * 86400 then 1 / 2 else 0)
  + prefBonus prefs e

/-- The content-search membership predicate exactly as claim C7 words it:
allow-listed extension, size greater than 0 and *at most* 1 MiB, and the
query occurring in the lowercased decoded content. -/
def claimTextPred (query : Str) (e : FileEntry) : Bool :=
  decide (toLowerL e.ext ∈ textExtensions) && decide (0 < e.size) &&
    decide (e.size ≤ 1048576) && occursIn query (toLowerL e.content)

/-- The content-search membership predicate as amended: the size bound is
strict (`< 1 MiB`), matching the code's `stat().st_size < 1024*1024`. -/
def amendedTextPred (query : Str) (e : FileEntry) : Bool :=
  decide (toLowerL e.ext ∈ textExtensions) && decide (0 < e.size) &&
    decide (e.size < 1048576) && occursIn query (toLowerL e.content)

/-- The per-category location observations as claim C5 words them: the
*immediate parent directory name* of each observed file (the code instead
records the scan root's name). -/
def claimObservedParents (roots : List Root) (c : Str) : List Str :=
  (roots.filter (fun r => r.exist)).flatMap (fun r =>
    r.files.filterMap (fun f =>
      if 0 < f.size ∧ categorize f = c then some f.parentName else none))

/-- The preference claim C5 says learning produces: modal immediate-parent
name with confidence `count / total`. -/
def claimLearnedPref (roots : List Root) (c : Str) : Option Pref :=
  match mostCommon (claimObservedParents roots c) with
  | some lc =>
      some ⟨lc.1, (lc.2 : ℚ) / ((claimObservedParents roots c).length : ℚ)⟩
  | none => none

/-! ## Concrete data used by the witnesses and counterexamples -/

/-- A file named `report.pdf`, 40 days old at `wNow`. -/
def wReport : FileEntry :=
  ⟨"/home/u/Documents".data, "Documents".data, "report.pdf".data,
   ".pdf".data, 5, 0, []⟩

/-- A file named `report.pdf.bak`, same age. -/
def wReportBak : FileEntry :=
  ⟨"/home/u/Documents".data, "Documents".data, "report.pdf.bak".data,
   ".bak".data, 5, 0, []⟩

/-- A reference time 40 days after the epoch (so files at mtime 0 get no
recency bonus). -/
def wNow : Int := 40 * 86400

/-- Two files both scoring exactly 7 for the query `"x"`. -/
def wAx : FileEntry :=
  ⟨"/h".data, "h".data, "ax".data, [], 3, 0, []⟩

/-- Second equal-score file for the tie-stability witness. -/
def wBx : FileEntry :=
  ⟨"/h".data, "h".data, "bx".data, [], 3, 0, []⟩

/-- A documents-category file living in a nested subdirectory `work` of
the scanned root `Documents` (its immediate parent is not the root). -/
def wNested : FileEntry :=
  ⟨"/home/u/Documents/work".data, "work".data, "a.pdf".data,
   ".pdf".data, 1, 0, []⟩

/-- The root set exhibiting the C5 discrepancy. -/
def wC5roots : List Root := [⟨"Documents".data, true, [wNested]⟩]

/-- A document directly in the Documents root. -/
def wDocA : FileEntry :=
  ⟨"/home/u/Documents".data, "Documents".data, "a.pdf".data,
   ".pdf".data, 1, 0, []⟩

/-- A second document directly in the Documents root. -/
def wDocB : FileEntry :=
  ⟨"/home/u/Documents".data, "Documents".data, "b.pdf".data,
   ".pdf".data, 1, 0, []⟩

/-- A document sitting in the Downloads root. -/
def wDocC : FileEntry :=
  ⟨"/home/u/Downloads".data, "Downloads".data, "c.pdf".data,
   ".pdf".data, 1, 0, []⟩

/-- Roots with documents split 2:1 between Documents and Downloads. -/
def wC5wroots : List Root :=
  [⟨"Documents".data, true, [wDocA, wDocB]⟩,
   ⟨"Downloads".data, true, [wDocC]⟩]

/-- A Downloads file of a category (`documents`) with no learned
preference under `wC6prefs`. -/
def wDownDoc : FileEntry :=
  ⟨"/home/u/Downloads".data, "Downloads".data, "notes.pdf".data,
   ".pdf".data, 3, 0, []⟩

/-- A preference table knowing only the `images` category. -/
def wC6prefs : PrefTable :=
  fun c => if c = "images".data then some ⟨"Pictures".data, 1⟩ else none

/-- A text file of exactly 1 MiB whose content contains the query:
claim C7 says it is returned, the code never opens it. -/
def wBigTxt : FileEntry :=
  ⟨"/home/u/Documents".data, "Documents".data, "big.txt".data,
   ".txt".data, 1048576, 0, "hello world".data⟩

/-- The query used in the C7 counterexample. -/
def wC7query : Str := "hello".data

/-- A query containing keywords of both date buckets, both size buckets,
and two type keywords of different categories. -/
def wC8query : Str := "new old large small photo movie".data

/-- A recent image file (mtime close to `wC8now`). -/
def wJpg : FileEntry :=
  ⟨"/h/P".data, "P".data, "x.jpg".data, ".jpg".data, 3, 1000 * 86400 - 100, []⟩

/-- An old video file. -/
def wMp4 : FileEntry :=
  ⟨"/h/V".data, "V".data, "v.mp4".data, ".mp4".data, 3, 0, []⟩

/-- An old 20 MB binary file. -/
def wBigBin : FileEntry :=
  ⟨"/h/D".data, "D".data, "blob.bin".data, ".bin".data, 20000000, 0, []⟩

/-- The candidate files for the C8 witness. -/
def wC8files : List FileEntry := [wJpg, wMp4, wBigBin]

/-- The reference time for the C8 witness. -/
def wC8now : Int := 1000 * 86400

/-- A raw file whose `stat` fails (vanished between listing and stat). -/
def wBadStat : RawFile := ⟨wReport, false, true⟩

/-- A healthy raw file matching the query `"report"`. -/
def wGoodStat : RawFile := ⟨wReportBak, true, true⟩

/-- A text raw file whose open/read fails. -/
def wBadRead : RawFile :=
  ⟨⟨"/h/D".data, "D".data, "a.txt".data, ".txt".data, 10, 0,
    "hello a".data⟩, true, false⟩

/-- A text raw file that reads fine and matches `"hello"`. -/
def wGoodRead : RawFile :=
  ⟨⟨"/h/D".data, "D".data, "b.txt".data, ".txt".data, 10, 0,
    "hello b".data⟩, true, true⟩

/-- A non-empty file for the empty-query witness. -/
def wNotes : FileEntry :=
  ⟨"/home/u/Documents".data, "Documents".data, "notes.txt".data,
   ".txt".data, 7, 0, "memo".data⟩

/-- The root set for the empty-query witness. -/
def wC10roots : List Root := [⟨"Documents".data, true, [wNotes]⟩]

/-! ## String lemmas -/

theorem occursIn_iff {n h : Str} :
    occursIn n h = true ↔ ∃ s t, s ++ n ++ t = h := by
  induction h with
  | nil =>
    simp only [occursIn, List.isEmpty_iff]
    constructor
    · rintro rfl
      exact ⟨[], [], rfl⟩
    · rintro ⟨s, t, hst⟩
      rcases List.append_eq_nil.mp hst with ⟨hsn, ht⟩
      exact (List.append_eq_nil.mp hsn).2
  | cons c t ih =>
    simp only [occursIn, Bool.or_eq_true, ih]
    constructor
    · rintro (hp | ⟨s, u, rfl⟩)
      · rcases List.isPrefixOf_iff_prefix.mp hp with ⟨r, hr⟩
        exact ⟨[], r, by simpa using hr⟩
      · exact ⟨c :: s, u, rfl⟩
    · rintro ⟨s, u, hsu⟩
      cases s with
      | nil =>
        left
        exact List.isPrefixOf_iff_prefix.mpr ⟨u, by simpa using hsu⟩
      | cons a s' =>
        right
        simp only [List.cons_append, List.cons.injEq] at hsu
        exact ⟨s', u, hsu.2⟩

theorem occursIn_self (l : Str) : occursIn l l = true :=
  occursIn_iff.mpr ⟨[], [], by simp⟩

theorem occursIn_nil_needle (h : Str) : occursIn [] h = true :=
  occursIn_iff.mpr ⟨[], h, by simp⟩

theorem occursIn_trans {a b c : Str} (h₁ : occursIn a b = true)
    (h₂ : occursIn b c = true) : occursIn a c = true := by
  rcases occursIn_iff.mp h₁ with ⟨s₁, t₁, rfl⟩
  rcases occursIn_iff.mp h₂ with ⟨s₂, t₂, rfl⟩
  exact occursIn_iff.mpr ⟨s₂ ++ s₁, t₁ ++ t₂, by simp⟩

theorem wsSplitF_infix :
    ∀ (n : Nat) (s w : Str), s.length ≤ n → w ∈ wsSplitF n s →
      ∃ a b, a ++ w ++ b = s := by
  intro n
  induction n with
  | zero =>
    intro s w _ hw
    simp [wsSplitF] at hw
  | succ n ih =>
    intro s w hs hw
    match s with
    | [] => simp [wsSplitF] at hw
    | c :: t =>
      by_cases hc : c.isWhitespace
      · rw [wsSplitF, if_pos hc] at hw
        have ht : t.length ≤ n := by
          simpa using Nat.le_of_succ_le_succ hs
        rcases ih t w ht hw with ⟨a, b, hab⟩
        exact ⟨c :: a, b, by simp [hab]⟩
      · rw [wsSplitF, if_neg hc] at hw
        rcases List.mem_cons.mp hw with rfl | hw'
        · refine ⟨[], t.dropWhile (fun d => !d.isWhitespace), ?_⟩
          simp [List.takeWhile_append_dropWhile]
        · have hd : (t.dropWhile (fun d => !d.isWhitespace)).length ≤ n := by
            have h1 := (List.dropWhile_sublist
              (l := t) (fun d => !d.isWhitespace)).length_le
            have h2 : t.length ≤ n := by
              simpa using Nat.le_of_succ_le_succ hs
            exact le_trans h1 h2
          rcases ih _ w hd hw' with ⟨a, b, hab⟩
          refine ⟨c :: (t.takeWhile (fun d => !d.isWhitespace) ++ a), b, ?_⟩
          have h3 : t.takeWhile (fun d => !d.isWhitespace) ++ (a ++ w ++ b) = t := by
            rw [hab, List.takeWhile_append_dropWhile]
          simp only [List.append_assoc] at h3
          simp only [List.cons_append, List.append_assoc, h3]

theorem wsSplit_infix {s w : Str} (hw : w ∈ wsSplit s) :
    ∃ a b, a ++ w ++ b = s :=
  wsSplitF_infix s.length s w le_rfl hw

theorem wsSplit_occursIn {s w : Str} (hw : w ∈ wsSplit s) :
    occursIn w s = true := by
  rcases wsSplit_infix hw with ⟨a, b, hab⟩
  exact occursIn_iff.mpr ⟨a, b, hab⟩

/-! ## Score lemmas -/

theorem foldl_word_bonus (p : Str → Bool) (l : List Str) (s : ℚ) :
    l.foldl (fun acc w => if p w then acc + 2 else acc) s
      = s + 2 * (l.countP p : ℚ) := by
  induction l generalizing s with
  | nil => simp
  | cons w ws ih =>
    rw [List.foldl_cons, ih, List.countP_cons]
    by_cases hw : p w = true
    · simp only [hw, if_true]
      push_cast
      ring
    · simp only [hw, if_false, Bool.false_eq_true]
      push_cast
      simp [hw]

theorem fdiv_day_lt (d c : Int) : d.fdiv 86400 < c ↔ d < c * 86400 := by
  rw [Int.fdiv_eq_ediv _ (by norm_num)]
  exact Int.ediv_lt_iff_lt_mul (by norm_num)

theorem scoreOf_eq_claimScore (now : Int) (prefs : PrefTable) (q : Str)
    (e : FileEntry) : scoreOf now prefs q e = claimScore now prefs q e := by
  unfold scoreOf claimScore prefBonus
  simp only [foldl_word_bonus, fdiv_day_lt]
  cases hp : prefs (categorize e) with
  | none => split_ifs <;> ring
  | some p =>
    by_cases hl : occursIn p.location e.parent = true
    · simp only [hl, if_true]
      split_ifs <;> ring
    · simp only [hl, if_false, Bool.false_eq_true]
      split_ifs <;> ring

/-! ## Sorting and ranking lemmas -/

theorem mem_insertDesc {x z : FileEntry × ℚ} {l : List (FileEntry × ℚ)} :
    z ∈ insertDesc x l ↔ z = x ∨ z ∈ l := by
  induction l with
  | nil => simp [insertDesc]
  | cons y ys ih =>
    by_cases h : y.2 ≤ x.2
    · simp [insertDesc, h]
    · simp only [insertDesc, if_neg h, List.mem_cons, ih]
      tauto

theorem insertDesc_perm (x : FileEntry × ℚ) (l : List (FileEntry × ℚ)) :
    (insertDesc x l).Perm (x :: l) := by
  induction l with
  | nil => simp [insertDesc]
  | cons y ys ih =>
    by_cases h : y.2 ≤ x.2
    · simp [insertDesc, h]
    · rw [insertDesc, if_neg h]
      exact (ih.cons y).trans (List.Perm.swap x y ys)

theorem sortDesc_perm (l : List (FileEntry × ℚ)) : (sortDesc l).Perm l := by
  induction l with
  | nil => simp [sortDesc]
  | cons x xs ih =>
    exact (insertDesc_perm x (sortDesc xs)).trans (ih.cons x)

theorem insertDesc_pairwise {x : FileEntry × ℚ} {l : List (FileEntry × ℚ)}
    (h : l.Pairwise (fun a b => b.2 ≤ a.2)) :
    (insertDesc x l).Pairwise (fun a b => b.2 ≤ a.2) := by
  induction l with
  | nil => simp [insertDesc]
  | cons y ys ih =>
    rcases List.pairwise_cons.mp h with ⟨hy, hys⟩
    by_cases hc : y.2 ≤ x.2
    · rw [insertDesc, if_pos hc]
      refine List.pairwise_cons.mpr ⟨?_, h⟩
      intro z hz
      rcases List.mem_cons.mp hz with rfl | hz'
      · exact hc
      · exact le_trans (hy z hz') hc
    · rw [insertDesc, if_neg hc]
      refine List.pairwise_cons.mpr ⟨?_, ih hys⟩
      intro z hz
      rcases mem_insertDesc.mp hz with rfl | hz'
      · exact le_of_not_le hc
      · exact hy z hz'

theorem sortDesc_pairwise (l : List (FileEntry × ℚ)) :
    (sortDesc l).Pairwise (fun a b => b.2 ≤ a.2) := by
  induction l with
  | nil => simp [sortDesc]
  | cons x xs ih => exact insertDesc_pairwise ih

theorem filter_insertDesc (x : FileEntry × ℚ) (l : List (FileEntry × ℚ))
    (s : ℚ) :
    (insertDesc x l).filter (fun y => decide (y.2 = s)) =
      (x :: l).filter (fun y => decide (y.2 = s)) := by
  induction l with
  | nil => rfl
  | cons y ys ih =>
    by_cases hc : y.2 ≤ x.2
    · rw [insertDesc, if_pos hc]
    · rw [insertDesc, if_neg hc]
      have hxy : x.2 ≠ y.2 := fun hxe => hc (le_of_eq hxe.symm)
      by_cases hy : y.2 = s <;> by_cases hx : x.2 = s
      · exact absurd (hx.trans hy.symm) hxy
      · simp [List.filter_cons, hy, hx, ih]
      · simp [List.filter_cons, hy, hx, ih]
      · simp [List.filter_cons, hy, hx, ih]

theorem filter_sortDesc (l : List (FileEntry × ℚ)) (s : ℚ) :
    (sortDesc l).filter (fun y => decide (y.2 = s)) =
      l.filter (fun y => decide (y.2 = s)) := by
  induction l with
  | nil => rfl
  | cons x xs ih =>
    rw [sortDesc, filter_insertDesc, List.filter_cons, List.filter_cons, ih]

theorem mem_scoredList {now : Int} {prefs : PrefTable} {q : Str}
    {files : List FileEntry} {e : FileEntry} {t : ℚ} :
    (e, t) ∈ scoredList now prefs q files ↔
      e ∈ files ∧ t = scoreOf now prefs q e ∧ 0 < t := by
  simp only [scoredList, List.mem_filterMap]
  constructor
  · rintro ⟨a, ha, hfa⟩
    by_cases h : 0 < scoreOf now prefs q a
    · rw [if_pos h, Option.some.injEq, Prod.mk.injEq] at hfa
      rcases hfa with ⟨rfl, rfl⟩
      exact ⟨ha, rfl, h⟩
    · rw [if_neg h] at hfa
      exact absurd hfa (by simp)
  · rintro ⟨he, rfl, hpos⟩
    exact ⟨e, he, by rw [if_pos hpos]⟩

theorem mem_rank_iff {now : Int} {prefs : PrefTable} {q : Str}
    {files : List FileEntry} {e : FileEntry} {t : ℚ} :
    (e, t) ∈ rank now prefs q files ↔
      e ∈ files ∧ t = scoreOf now prefs q e ∧ 0 < t := by
  rw [rank, (sortDesc_perm _).mem_iff]
  exact mem_scoredList

theorem rank_elem {now : Int} {prefs : PrefTable} {q : Str}
    {files : List FileEntry} {x : FileEntry × ℚ}
    (hx : x ∈ rank now prefs q files) :
    x.1 ∈ files ∧ x.2 = scoreOf now prefs q x.1 ∧ 0 < x.2 := by
  obtain ⟨e, t⟩ := x
  exact mem_rank_iff.mp hx

theorem rank_pairwise (now : Int) (prefs : PrefTable) (q : Str)
    (files : List FileEntry) :
    (rank now prefs q files).Pairwise (fun a b => b.2 ≤ a.2) :=
  sortDesc_pairwise _

theorem filter_scoredList {s : ℚ} (hs : 0 < s) (now : Int)
    (prefs : PrefTable) (q : Str) (files : List FileEntry) :
    (scoredList now prefs q files).filter (fun y => decide (y.2 = s)) =
      (files.filter (fun e => decide (scoreOf now prefs q e = s))).map
        (fun e => (e, s)) := by
  induction files with
  | nil => rfl
  | cons f fs ih =>
    simp only [scoredList] at ih ⊢
    rw [List.filterMap_cons]
    by_cases hpos : 0 < scoreOf now prefs q f
    · rw [if_pos hpos, List.filter_cons, List.filter_cons]
      by_cases hf : scoreOf now prefs q f = s
      · simp [hf, ih]
      · simp [hf, ih]
    · rw [if_neg hpos, List.filter_cons]
      by_cases hf : scoreOf now prefs q f = s
      · exact absurd (hf ▸ hs) hpos
      · simp [hf, ih]

theorem filter_rank {s : ℚ} (hs : 0 < s) (now : Int) (prefs : PrefTable)
    (q : Str) (files : List FileEntry) :
    (rank now prefs q files).filter (fun y => decide (y.2 = s)) =
      (files.filter (fun e => decide (scoreOf now prefs q e = s))).map
        (fun e => (e, s)) := by
  rw [rank, filter_sortDesc, filter_scoredList hs]

theorem scoredList_fst_sublist (now : Int) (prefs : PrefTable) (q : Str)
    (files : List FileEntry) :
    ((scoredList now prefs q files).map Prod.fst).Sublist files := by
  induction files with
  | nil => simp [scoredList]
  | cons f fs ih =>
    rw [scoredList, List.filterMap_cons]
    by_cases h : 0 < scoreOf now prefs q f
    · rw [if_pos h]
      simpa using List.Sublist.cons₂ f ih
    · rw [if_neg h]
      exact List.Sublist.cons f ih

/-! ## Deduplication lemmas -/

theorem dedupBy_subset {α β : Type} [DecidableEq β] {key : α → β} :
    ∀ (l : List α) (seen : List β) {x : α}, x ∈ dedupBy key seen l → x ∈ l := by
  intro l
  induction l with
  | nil =>
    intro seen x hx
    simp [dedupBy] at hx
  | cons y ys ih =>
    intro seen x hx
    rw [dedupBy] at hx
    by_cases h : key y ∈ seen
    · rw [if_pos h] at hx
      exact List.mem_cons_of_mem y (ih seen hx)
    · rw [if_neg h] at hx
      rcases List.mem_cons.mp hx with rfl | hx'
      · exact List.mem_cons_self _ _
      · exact List.mem_cons_of_mem y (ih _ hx')

theorem dedupBy_key_not_seen {α β : Type} [DecidableEq β] {key : α → β} :
    ∀ (l : List α) (seen : List β) {x : α},
      x ∈ dedupBy key seen l → key x ∉ seen := by
  intro l
  induction l with
  | nil =>
    intro seen x hx
    simp [dedupBy] at hx
  | cons y ys ih =>
    intro seen x hx
    rw [dedupBy] at hx
    by_cases h : key y ∈ seen
    · rw [if_pos h] at hx
      exact ih seen hx
    · rw [if_neg h] at hx
      rcases List.mem_cons.mp hx with rfl | hx'
      · exact h
      · have := ih _ hx'
        intro hs
        exact this (List.mem_cons_of_mem _ hs)

theorem dedupBy_sublist {α β : Type} [DecidableEq β] {key : α → β} :
    ∀ (l : List α) (seen : List β), (dedupBy key seen l).Sublist l := by
  intro l
  induction l with
  | nil => intro seen; simp [dedupBy]
  | cons y ys ih =>
    intro seen
    rw [dedupBy]
    by_cases h : key y ∈ seen
    · rw [if_pos h]
      exact List.Sublist.cons y (ih seen)
    · rw [if_neg h]
      exact List.Sublist.cons₂ y (ih _)

theorem exists_dedupBy_key {α β : Type} [DecidableEq β] (key : α → β) :
    ∀ (l : List α) (seen : List β) {x : α}, x ∈ l → key x ∉ seen →
      ∃ y ∈ dedupBy key seen l, key y = key x := by
  intro l
  induction l with
  | nil =>
    intro seen x hx _
    simp at hx
  | cons y ys ih =>
    intro seen x hx hns
    rw [dedupBy]
    by_cases h : key y ∈ seen
    · rw [if_pos h]
      rcases List.mem_cons.mp hx with rfl | hx'
      · exact absurd h hns
      · exact ih seen hx' hns
    · rw [if_neg h]
      by_cases hk : key x = key y
      · exact ⟨y, List.mem_cons_self _ _, hk.symm⟩
      · rcases List.mem_cons.mp hx with rfl | hx'
        · exact absurd rfl hk
        · rcases ih (key y :: seen) hx' (by simp [hk, hns]) with ⟨z, hz, hkz⟩
          exact ⟨z, List.mem_cons_of_mem y hz, hkz⟩

theorem dedupBy_map_key_nodup {α β : Type} [DecidableEq β] {key : α → β} :
    ∀ (l : List α) (seen : List β), ((dedupBy key seen l).map key).Nodup := by
  intro l
  induction l with
  | nil => intro seen; simp [dedupBy]
  | cons y ys ih =>
    intro seen
    rw [dedupBy]
    by_cases h : key y ∈ seen
    · rw [if_pos h]
      exact ih seen
    · rw [if_neg h]
      rw [List.map_cons, List.nodup_cons]
      refine ⟨?_, ih _⟩
      intro hmem
      rcases List.mem_map.mp hmem with ⟨z, hz, hkz⟩
      exact (dedupBy_key_not_seen _ _ hz) (by simp [hkz])

theorem dedupBy_pairwise_firstIdx {α β : Type} [DecidableEq β] {key : α → β} :
    ∀ (l : List α) (seen : List β),
      (dedupBy key seen l).Pairwise
        (fun a b => firstIdxBy key (key a) l < firstIdxBy key (key b) l) := by
  intro l
  induction l with
  | nil => intro seen; simp [dedupBy]
  | cons y ys ih =>
    intro seen
    rw [dedupBy]
    by_cases h : key y ∈ seen
    · rw [if_pos h]
      refine List.Pairwise.imp_of_mem ?_ (ih seen)
      intro a b ha hb hab
      have hka : key y ≠ key a := by
        intro he
        exact (dedupBy_key_not_seen _ _ ha) (he ▸ h)
      have hkb : key y ≠ key b := by
        intro he
        exact (dedupBy_key_not_seen _ _ hb) (he ▸ h)
      rw [firstIdxBy, if_neg hka, firstIdxBy, if_neg hkb]
      omega
    · rw [if_neg h]
      refine List.pairwise_cons.mpr ⟨?_, ?_⟩
      · intro b hb
        have hkb : key y ≠ key b := by
          intro he
          exact (dedupBy_key_not_seen _ _ hb) (by simp [he.symm])
        rw [firstIdxBy, if_pos rfl, firstIdxBy, if_neg hkb]
        omega
      · refine List.Pairwise.imp_of_mem ?_ (ih (key y :: seen))
        intro a b ha hb hab
        have hka : key y ≠ key a := by
          intro he
          exact (dedupBy_key_not_seen _ _ ha) (by simp [he.symm])
        have hkb : key y ≠ key b := by
          intro he
          exact (dedupBy_key_not_seen _ _ hb) (by simp [he.symm])
        rw [firstIdxBy, if_neg hka, firstIdxBy, if_neg hkb]
        omega

/-! ## Strategy lemmas -/

theorem mem_searchByFilename {q : Str} {files : List FileEntry}
    {e : FileEntry} :
    e ∈ searchByFilename q files ↔
      e ∈ files ∧ 0 < e.size ∧ occursIn q (toLowerL e.name) = true := by
  simp [searchByFilename, List.mem_filter, and_assoc]

theorem contentTrace_fst (q : Str) (files : List FileEntry) :
    (contentSearchTrace q files).1 =
      files.filter (fun e => textGuard e && occursIn q (toLowerL e.content)) := by
  induction files with
  | nil => rfl
  | cons e es ih =>
    simp only [contentSearchTrace, List.filter_cons]
    by_cases hg : textGuard e = true
    · by_cases hm : occursIn q (toLowerL e.content) = true
      · simp [hg, hm, ih]
      · simp [hg, hm, ih]
    · simp [hg, ih]

theorem contentTrace_snd (q : Str) (files : List FileEntry) :
    (contentSearchTrace q files).2 = files.filter textGuard := by
  induction files with
  | nil => rfl
  | cons e es ih =>
    simp only [contentSearchTrace, List.filter_cons]
    by_cases hg : textGuard e = true
    · by_cases hm : occursIn q (toLowerL e.content) = true
      · simp [hg, hm, ih]
      · simp [hg, hm, ih]
    · simp [hg, ih]

theorem searchByContentKeywords_subset {q : Str} {files : List FileEntry}
    {e : FileEntry} (h : e ∈ searchByContentKeywords q files) : e ∈ files := by
  rw [searchByContentKeywords, contentTrace_fst] at h
  exact (List.mem_filter.mp h).1

theorem searchByFileType_subset {q : Str} {files : List FileEntry}
    {e : FileEntry} (h : e ∈ searchByFileType q files) : e ∈ files := by
  rw [searchByFileType] at h
  cases hf : typeKeywords.find? (fun kc => occursIn kc.1 q) with
  | none =>
    rw [hf] at h
    simp at h
  | some kc =>
    rw [hf] at h
    exact (List.mem_filter.mp h).1

theorem searchByDateContext_subset {q : Str} {files : List FileEntry}
    {now : Int} {e : FileEntry} (h : e ∈ searchByDateContext q files now) :
    e ∈ files := by
  rw [searchByDateContext] at h
  split at h
  · exact (List.mem_filter.mp h).1
  · split at h
    · exact (List.mem_filter.mp h).1
    · simp at h

theorem searchBySizeContext_subset {q : Str} {files : List FileEntry}
    {e : FileEntry} (h : e ∈ searchBySizeContext q files) : e ∈ files := by
  rw [searchBySizeContext] at h
  split at h
  · exact (List.mem_filter.mp h).1
  · split at h
    · exact (List.mem_filter.mp h).1
    · simp at h

theorem allCandidates_subset {now : Int} {q : Str} {roots : List Root}
    {e : FileEntry} (h : e ∈ allCandidates now q roots) :
    e ∈ scanFiles roots := by
  rw [allCandidates] at h
  simp only [List.mem_append] at h
  rcases h with ((((h | h) | h) | h) | h)
  · exact (List.mem_filter.mp h).1
  · exact searchByContentKeywords_subset h
  · exact searchByFileType_subset h
  · exact searchByDateContext_subset h
  · exact searchBySizeContext_subset h

theorem find?_first {α : Type} {f : α → Bool} {x : α} :
    ∀ (pre post : List α), (∀ p ∈ pre, f p = false) → f x = true →
      (pre ++ x :: post).find? f = some x := by
  intro pre
  induction pre with
  | nil =>
    intro post _ hx
    simpa using List.find?_cons_of_pos post hx
  | cons p ps ih =>
    intro post hpre hx
    rw [List.cons_append, List.find?_cons_of_neg]
    · exact ih post (fun z hz => hpre z (List.mem_cons_of_mem _ hz)) hx
    · have := hpre p (List.mem_cons_self _ _)
      simp [this]

/-! ## Learner lemmas -/

theorem bestOf_cons_ne_none (l : List Str) (x : Str) (xs : List Str) :
    bestOf l (x :: xs) ≠ none := by
  cases hb : bestOf l xs with
  | none =>
    rw [bestOf, hb]
    simp
  | some yc =>
    rw [bestOf, hb]
    dsimp only
    by_cases hc : yc.2 ≤ l.count x <;> simp [hc]

theorem bestOf_spec (l : List Str) :
    ∀ (d : List Str) (y : Str) (c : Nat), bestOf l d = some (y, c) →
      y ∈ d ∧ c = l.count y ∧ ∀ x ∈ d, l.count x ≤ c := by
  intro d
  induction d with
  | nil =>
    intro y c h
    simp [bestOf] at h
  | cons x xs ih =>
    intro y c h
    rw [bestOf] at h
    cases hb : bestOf l xs with
    | none =>
      rw [hb] at h
      dsimp only at h
      rw [Option.some.injEq, Prod.mk.injEq] at h
      rcases h with ⟨rfl, rfl⟩
      refine ⟨List.mem_cons_self _ _, rfl, ?_⟩
      intro z hz
      rcases List.mem_cons.mp hz with rfl | hz'
      · exact le_rfl
      · cases xs with
        | nil => simp at hz'
        | cons a as => exact absurd hb (bestOf_cons_ne_none l a as)
    | some yc =>
      obtain ⟨y', c'⟩ := yc
      rw [hb] at h
      dsimp only at h
      rcases ih y' c' hb with ⟨hmem, hcnt, hmax⟩
      by_cases hle : c' ≤ l.count x
      · rw [if_pos hle] at h
        rw [Option.some.injEq, Prod.mk.injEq] at h
        rcases h with ⟨rfl, rfl⟩
        refine ⟨List.mem_cons_self _ _, rfl, ?_⟩
        intro z hz
        rcases List.mem_cons.mp hz with rfl | hz'
        · exact le_rfl
        · exact le_trans (hmax z hz') hle
      · rw [if_neg hle] at h
        rw [Option.some.injEq, Prod.mk.injEq] at h
        rcases h with ⟨rfl, rfl⟩
        refine ⟨List.mem_cons_of_mem _ hmem, hcnt, ?_⟩
        intro z hz
        rcases List.mem_cons.mp hz with rfl | hz'
        · exact le_of_lt (lt_of_not_le hle)
        · exact hmax z hz'

theorem mostCommon_spec {l : List Str} {y : Str} {c : Nat}
    (h : mostCommon l = some (y, c)) :
    y ∈ l ∧ c = l.count y ∧ ∀ x ∈ l, l.count x ≤ c := by
  rcases bestOf_spec l _ y c h with ⟨hmem, hcnt, hmax⟩
  refine ⟨dedupBy_subset _ _ hmem, hcnt, ?_⟩
  intro x hx
  rcases exists_dedupBy_key id l [] hx (by simp) with ⟨z, hz, hzx⟩
  have hzx' : z = x := hzx
  exact hzx' ▸ hmax z hz

theorem mostCommon_ne_none {l : List Str} (h : l ≠ []) :
    ∃ y c, mostCommon l = some (y, c) := by
  cases l with
  | nil => exact absurd rfl h
  | cons x xs =>
    cases hb : mostCommon (x :: xs) with
    | none =>
      exfalso
      rw [mostCommon, dedupBy, if_neg (by simp)] at hb
      exact bestOf_cons_ne_none _ _ _ hb
    | some yc => exact ⟨yc.1, yc.2, rfl⟩

/-! ## Error-model lemmas -/

theorem analyzeObserved_eq (raws : List RawFile) :
    analyzeObserved raws =
      (raws.filter (fun r => r.statOk && decide (0 < r.entry.size))).map
        (fun r => r.entry) := by
  induction raws with
  | nil => rfl
  | cons r rs ih =>
    rw [analyzeObserved, List.filter_cons]
    by_cases hs : r.statOk = true
    · by_cases hz : 0 < r.entry.size
      · simp [hs, hz, ih]
      · simp [hs, hz, ih]
    · simp [hs, ih]

theorem contentSearchE_ok (q : Str) :
    ∀ (raws : List RawFile), (∀ r ∈ raws, r.statOk = true) →
      contentSearchE q raws = Except.ok
        ((raws.filter (fun r => textGuard r.entry && r.readOk &&
          occursIn q (toLowerL r.entry.content))).map (fun r => r.entry)) := by
  intro raws
  induction raws with
  | nil => intro _; rfl
  | cons r rs ih =>
    intro h
    rw [contentSearchE, if_pos (h r (List.mem_cons_self _ _)),
      ih (fun z hz => h z (List.mem_cons_of_mem _ hz)), List.filter_cons]
    by_cases hg : textGuard r.entry = true
    · by_cases hr : r.readOk = true
      · by_cases hm : occursIn q (toLowerL r.entry.content) = true
        · simp [hg, hr, hm]
        · simp [hg, hr, hm]
      · simp [hg, hr]
    · simp [hg]

/-! ## Auto-organization lemmas -/

theorem mem_autoOrganize {files : List FileEntry} {prefs : PrefTable}
    {f : FileEntry} {t : Str} :
    (f, t) ∈ autoOrganize files prefs ↔
      f ∈ files ∧ 0 < f.size ∧ ∃ p, prefs (categorize f) = some p ∧
        p.location ∈ locationMapping ∧ t = p.location := by
  simp only [autoOrganize, List.mem_filterMap]
  constructor
  · rintro ⟨a, ha, hfa⟩
    by_cases hz : 0 < a.size
    · rw [if_pos hz] at hfa
      cases hp : prefs (categorize a) with
      | none =>
        rw [hp] at hfa
        simp at hfa
      | some p =>
        rw [hp] at hfa
        dsimp only at hfa
        by_cases hl : p.location ∈ locationMapping
        · rw [if_pos hl, Option.some.injEq, Prod.mk.injEq] at hfa
          rcases hfa with ⟨rfl, rfl⟩
          exact ⟨ha, hz, p, hp, hl, rfl⟩
        · rw [if_neg hl] at hfa
          simp at hfa
    · rw [if_neg hz] at hfa
      simp at hfa
  · rintro ⟨hf, hz, p, hp, hl, rfl⟩
    refine ⟨f, hf, ?_⟩
    rw [if_pos hz, hp]
    dsimp only
    rw [if_pos hl]

/-! ## Score-term bounds -/

theorem recencyTerm_bounds (d : Int) :
    (0:ℚ) ≤ (if d < 7 * 86400 then (1:ℚ)
             else if d < 30 * 86400 then 1 / 2 else 0)
    ∧ (if d < 7 * 86400 then (1:ℚ)
       else if d < 30 * 86400 then 1 / 2 else 0) ≤ 1 := by
  split_ifs <;> norm_num

theorem prefBonus_nonneg {prefs : PrefTable}
    (hconf : ∀ c p, prefs c = some p → 0 ≤ p.confidence) (e : FileEntry) :
    0 ≤ prefBonus prefs e := by
  unfold prefBonus
  cases hp : prefs (categorize e) with
  | none => norm_num
  | some p =>
    dsimp only
    split_ifs
    · exact hconf _ p hp
    · norm_num

theorem prefBonus_le_one {prefs : PrefTable}
    (hconf : ∀ c p, prefs c = some p → p.confidence ≤ 1) (e : FileEntry) :
    prefBonus prefs e ≤ 1 := by
  unfold prefBonus
  cases hp : prefs (categorize e) with
  | none => norm_num
  | some p =>
    dsimp only
    split_ifs
    · exact hconf _ p hp
    · norm_num

/-! ## The claims -/

/-- C1: for every candidate file and query, the ranker computes the file's
relevance score as the additive sum claimed by the spec: `+10` when the
lowercase basename equals the query, else `+5` when the query is a
substring of it; `+2` for each whitespace-split query word occurring in
the basename (stacking with the above); `+1` when the file was modified
within the last 7 days, else `+1/2` within the last 30 (7-day bucket
wins); plus the learned preference confidence of the file's category
whenever its learned preferred location occurs in the file's parent path
string. -/
theorem score_is_claimed_additive_sum (now : Int) (prefs : PrefTable)
    (q : Str) (e : FileEntry) :
    scoreOf now prefs q e = claimScore now prefs q e :=
  scoreOf_eq_claimScore now prefs q e

/-- C3: the ranker's output contains exactly the input entries with
strictly positive score (paired with that score), is ordered by score
descending, and breaks score ties by original insertion order: for each
score value, the tied block is exactly the input-order sublist of entries
having that score. -/
theorem rank_output_characterization (now : Int) (prefs : PrefTable)
    (q : Str) (files : List FileEntry) :
    (∀ e t, (e, t) ∈ rank now prefs q files ↔
        e ∈ files ∧ t = scoreOf now prefs q e ∧ 0 < t)
    ∧ (rank now prefs q files).Pairwise (fun a b => b.2 ≤ a.2)
    ∧ ∀ s : ℚ, 0 < s →
        (rank now prefs q files).filter (fun y => decide (y.2 = s)) =
          (files.filter (fun e => decide (scoreOf now prefs q e = s))).map
            (fun e => (e, s)) :=
  ⟨fun _ _ => mem_rank_iff, rank_pairwise now prefs q files,
   fun _ hs => filter_rank hs now prefs q files⟩

/-- C3 witness: two files tied at score 7 for query `"x"` keep their
discovery order in the ranked output. -/
theorem rank_output_characterization_witness :
    (rank wNow noPrefs "x".data [wAx, wBx]).filter
        (fun y => decide (y.2 = (7:ℚ))) =
      ([wAx, wBx].filter
        (fun e => decide (scoreOf wNow noPrefs "x".data e = (7:ℚ)))).map
        (fun e => (e, (7:ℚ))) :=
  (rank_output_characterization wNow noPrefs "x".data [wAx, wBx]).2.2 7
    (by norm_num)

/-- C4: merging the five strategies' concatenated outputs yields at most
one entry per canonical absolute path, loses no path, keeps entries in
first-seen discovery order, and no two ranked results ever share a
path. -/
theorem merge_dedup_by_path (now : Int) (q : Str) (prefs : PrefTable)
    (roots : List Root) :
    ((mergedCandidates now q roots).map fullPath).Nodup
    ∧ (mergedCandidates now q roots).Sublist (allCandidates now q roots)
    ∧ (∀ p : Str, (∃ x ∈ allCandidates now q roots, fullPath x = p) ↔
        ∃ x ∈ mergedCandidates now q roots, fullPath x = p)
    ∧ (mergedCandidates now q roots).Pairwise
        (fun a b =>
          firstIdxBy fullPath (fullPath a) (allCandidates now q roots) <
          firstIdxBy fullPath (fullPath b) (allCandidates now q roots))
    ∧ ((rank now prefs q (mergedCandidates now q roots)).map
        (fun x => fullPath x.1)).Nodup := by
  refine ⟨dedupBy_map_key_nodup _ _, dedupBy_sublist _ _, ?_,
    dedupBy_pairwise_firstIdx _ _, ?_⟩
  · intro p
    constructor
    · rintro ⟨x, hx, rfl⟩
      exact exists_dedupBy_key fullPath _ [] hx (by simp)
    · rintro ⟨x, hx, rfl⟩
      exact ⟨x, dedupBy_subset _ _ hx, rfl⟩
  · have h1 : ((mergedCandidates now q roots).map fullPath).Nodup :=
      dedupBy_map_key_nodup _ _
    have hperm :
        ((rank now prefs q (mergedCandidates now q roots)).map
          (fun x => fullPath x.1)).Perm
        ((scoredList now prefs q (mergedCandidates now q roots)).map
          (fun x => fullPath x.1)) :=
      (sortDesc_perm _).map _
    have hsub :=
      (scoredList_fst_sublist now prefs q (mergedCandidates now q roots)).map
        fullPath
    rw [List.map_map] at hsub
    have h2 : ((scoredList now prefs q (mergedCandidates now q roots)).map
        (fun x => fullPath x.1)).Nodup :=
      List.Nodup.sublist hsub h1
    exact hperm.nodup_iff.mpr h2

/-- C2: when the query equals a candidate's lowercase basename exactly and
all learned confidences lie in `[0, 1]`, that candidate scores at least
10, scores strictly above every candidate containing the query only as a
proper substring, and is ranked strictly above it. -/
theorem exact_match_outranks_substring (now : Int) (prefs : PrefTable)
    (files : List FileEntry) (A B : FileEntry) (q : Str)
    (hA : A ∈ files) (hB : B ∈ files)
    (hqA : q = toLowerL A.name)
    (hBsub : occursIn q (toLowerL B.name) = true)
    (hBne : q ≠ toLowerL B.name)
    (hconf : ∀ c p, prefs c = some p →
      0 ≤ p.confidence ∧ p.confidence ≤ 1) :
    (10:ℚ) ≤ scoreOf now prefs q A
    ∧ scoreOf now prefs q B < scoreOf now prefs q A
    ∧ (A, scoreOf now prefs q A) ∈ rank now prefs q files
    ∧ (B, scoreOf now prefs q B) ∈ rank now prefs q files
    ∧ ∀ i j : Fin (rank now prefs q files).length,
        ((rank now prefs q files).get i).1 = A →
        ((rank now prefs q files).get j).1 = B → i < j := by
  have hwordsA : ∀ w ∈ wsSplit q, occursIn w (toLowerL A.name) = true := by
    intro w hw
    rw [← hqA]
    exact wsSplit_occursIn hw
  have hwordsB : ∀ w ∈ wsSplit q, occursIn w (toLowerL B.name) = true :=
    fun w hw => occursIn_trans (wsSplit_occursIn hw) hBsub
  have hcntA : (wsSplit q).countP (fun w => occursIn w (toLowerL A.name)) =
      (wsSplit q).length := List.countP_eq_length.mpr hwordsA
  have hcntB : (wsSplit q).countP (fun w => occursIn w (toLowerL B.name)) =
      (wsSplit q).length := List.countP_eq_length.mpr hwordsB
  have hAeq : scoreOf now prefs q A =
      10 + 2 * ((wsSplit q).length : ℚ)
        + (if now - A.mtime < 7 * 86400 then (1:ℚ)
           else if now - A.mtime < 30 * 86400 then 1 / 2 else 0)
        + prefBonus prefs A := by
    rw [scoreOf_eq_claimScore, claimScore, if_pos hqA, hcntA]
  have hBeq : scoreOf now prefs q B =
      5 + 2 * ((wsSplit q).length : ℚ)
        + (if now - B.mtime < 7 * 86400 then (1:ℚ)
           else if now - B.mtime < 30 * 86400 then 1 / 2 else 0)
        + prefBonus prefs B := by
    rw [scoreOf_eq_claimScore, claimScore, if_neg hBne, if_pos hBsub, hcntB]
  have hrA := recencyTerm_bounds (now - A.mtime)
  have hrB := recencyTerm_bounds (now - B.mtime)
  have hpA0 : 0 ≤ prefBonus prefs A :=
    prefBonus_nonneg (fun c p hp => (hconf c p hp).1) A
  have hpB0 : 0 ≤ prefBonus prefs B :=
    prefBonus_nonneg (fun c p hp => (hconf c p hp).1) B
  have hpB1 : prefBonus prefs B ≤ 1 :=
    prefBonus_le_one (fun c p hp => (hconf c p hp).2) B
  have hL0 : (0:ℚ) ≤ ((wsSplit q).length : ℚ) := Nat.cast_nonneg _
  have hA10 : (10:ℚ) ≤ scoreOf now prefs q A := by
    rw [hAeq]
    linarith [hrA.1]
  have hBlt : scoreOf now prefs q B < scoreOf now prefs q A := by
    rw [hAeq, hBeq]
    linarith [hrA.1, hrB.2]
  have hB5 : (5:ℚ) ≤ scoreOf now prefs q B := by
    rw [hBeq]
    linarith [hrB.1]
  have hApos : 0 < scoreOf now prefs q A :=
    lt_of_lt_of_le (by norm_num) hA10
  have hBpos : 0 < scoreOf now prefs q B :=
    lt_of_lt_of_le (by norm_num) hB5
  have hmemA : (A, scoreOf now prefs q A) ∈ rank now prefs q files :=
    mem_rank_iff.mpr ⟨hA, rfl, hApos⟩
  have hmemB : (B, scoreOf now prefs q B) ∈ rank now prefs q files :=
    mem_rank_iff.mpr ⟨hB, rfl, hBpos⟩
  refine ⟨hA10, hBlt, hmemA, hmemB, ?_⟩
  intro i j hi hj
  have hAB : A ≠ B := by
    intro he
    exact hBne (he ▸ hqA)
  by_contra hij
  push_neg at hij
  rcases lt_or_eq_of_le hij with hji | hji
  · have hcmp := (List.pairwise_iff_get.mp
      (rank_pairwise now prefs q files)) j i hji
    have hgi : (rank now prefs q files).get i ∈ rank now prefs q files :=
      List.get_mem _ _ _
    have hgj : (rank now prefs q files).get j ∈ rank now prefs q files :=
      List.get_mem _ _ _
    obtain ⟨-, hsi, -⟩ := rank_elem hgi
    obtain ⟨-, hsj, -⟩ := rank_elem hgj
    rw [hi] at hsi
    rw [hj] at hsj
    rw [hsi, hsj] at hcmp
    exact absurd hcmp (not_le.mpr hBlt)
  · exact hAB (by rw [← hi, ← hj, hji])

/-- C2 witness: for the query `report.pdf`, the file `report.pdf` scores
strictly above `report.pdf.bak`. -/
theorem exact_match_outranks_substring_witness :
    scoreOf wNow noPrefs "report.pdf".data wReportBak <
      scoreOf wNow noPrefs "report.pdf".data wReport :=
  (exact_match_outranks_substring wNow noPrefs [wReportBak, wReport]
    wReport wReportBak "report.pdf".data (by decide) (by decide) (by decide)
    (by decide) (by decide) (fun c p h => nomatch h)).2.1

/-- C5 counterexample: a documents file nested in `Documents/work` makes
the code learn preferred location `Documents` (the scan root's name),
while the claim's "most frequent immediate-parent directory name" is
`work`; the two disagree. -/
theorem learned_location_is_root_not_parent :
    (learnedPref wC5roots "documents".data).map Pref.location =
      some "Documents".data
    ∧ (claimLearnedPref wC5roots "documents".data).map Pref.location =
      some "work".data
    ∧ (learnedPref wC5roots "documents".data).map Pref.location ≠
      (claimLearnedPref wC5roots "documents".data).map Pref.location := by
  refine ⟨by decide, by decide, by decide⟩

/-- C5 (amended): after a full analysis pass, every category observed in
at least one non-empty file maps to a preference whose location is the
most frequent *scan-root directory name* among that category's observed
files (first observed wins ties) and whose confidence is the modal
frequency divided by the total count; the confidence lies in `(0, 1]`. -/
theorem learned_preference_mode_and_confidence (old : PrefTable)
    (roots : List Root) (c : Str) (loc : Str) (cnt : Nat)
    (h : mostCommon (observedLocs roots c) = some (loc, cnt)) :
    learnUpdate old roots c =
      some ⟨loc, (cnt : ℚ) / ((observedLocs roots c).length : ℚ)⟩
    ∧ loc ∈ observedLocs roots c
    ∧ cnt = (observedLocs roots c).count loc
    ∧ (∀ x ∈ observedLocs roots c, (observedLocs roots c).count x ≤ cnt)
    ∧ 0 < (cnt : ℚ) / ((observedLocs roots c).length : ℚ)
    ∧ (cnt : ℚ) / ((observedLocs roots c).length : ℚ) ≤ 1 := by
  rcases mostCommon_spec h with ⟨hmem, hcnt, hmax⟩
  have hlp : learnedPref roots c =
      some ⟨loc, (cnt : ℚ) / ((observedLocs roots c).length : ℚ)⟩ := by
    rw [learnedPref, h]
  have hupd : learnUpdate old roots c =
      some ⟨loc, (cnt : ℚ) / ((observedLocs roots c).length : ℚ)⟩ := by
    rw [learnUpdate, hlp]
  have hlen : 0 < (observedLocs roots c).length :=
    List.length_pos.mpr (List.ne_nil_of_mem hmem)
  have hcpos : 0 < cnt := by
    rw [hcnt]
    exact List.count_pos_iff.mpr hmem
  have hcle : cnt ≤ (observedLocs roots c).length :=
    hcnt ▸ List.count_le_length _ _
  refine ⟨hupd, hmem, hcnt, hmax, ?_, ?_⟩
  · exact div_pos (by exact_mod_cast hcpos) (by exact_mod_cast hlen)
  · rw [div_le_one (by exact_mod_cast hlen)]
    exact_mod_cast hcle

/-- C5 amended witness: documents split 2:1 between the Documents and
Downloads roots learn preference `Documents` with confidence 2/3. -/
theorem learned_preference_mode_witness :
    learnUpdate noPrefs wC5wroots "documents".data =
      some ⟨"Documents".data,
        ((2 : Nat) : ℚ) /
          ((observedLocs wC5wroots "documents".data).length : ℚ)⟩ :=
  (learned_preference_mode_and_confidence noPrefs wC5wroots "documents".data
    "Documents".data 2 (by decide)).1

/-- C6: the auto-organizer produces a move for a Downloads file only when
its category has a learned preference whose location differs from the
file's current parent (`Downloads`); no learned preference, or a
preference pointing at the file's current directory, never yields a
move. -/
theorem organize_only_with_differing_preference (files : List FileEntry)
    (prefs : PrefTable) (f : FileEntry) :
    (∀ t, (f, t) ∈ autoOrganize files prefs →
      ∃ p, prefs (categorize f) = some p ∧ t = p.location ∧
        p.location ≠ downloadsName)
    ∧ (prefs (categorize f) = none →
        ∀ t, (f, t) ∉ autoOrganize files prefs)
    ∧ (∀ p, prefs (categorize f) = some p → p.location = downloadsName →
        ∀ t, (f, t) ∉ autoOrganize files prefs) := by
  refine ⟨?_, ?_, ?_⟩
  · intro t ht
    rcases mem_autoOrganize.mp ht with ⟨-, -, p, hp, hl, rfl⟩
    refine ⟨p, hp, rfl, ?_⟩
    intro he
    rw [he] at hl
    exact absurd hl (by decide)
  · intro hnone t ht
    rcases mem_autoOrganize.mp ht with ⟨-, -, p, hp, -, -⟩
    rw [hnone] at hp
    simp at hp
  · intro p hp hloc t ht
    rcases mem_autoOrganize.mp ht with ⟨-, -, p', hp', hl', -⟩
    rw [hp, Option.some.injEq] at hp'
    rw [← hp', hloc] at hl'
    exact absurd hl' (by decide)

/-- C6 witness: a Downloads document whose category has no learned
preference is not moved. -/
theorem organize_only_with_differing_preference_witness :
    (wDownDoc, "Documents".data) ∉ autoOrganize [wDownDoc] wC6prefs :=
  (organize_only_with_differing_preference [wDownDoc] wC6prefs wDownDoc).2.1
    (by decide) "Documents".data

/-- C7 counterexample: a `.txt` file of exactly 1 MiB whose content
contains the query satisfies the claim's membership predicate ("size at
most 1 MiB"), yet the code neither returns it nor ever opens it — the
code's size bound is strict. -/
theorem content_search_one_mib_boundary :
    claimTextPred wC7query wBigTxt = true
    ∧ wBigTxt ∉ searchByContentKeywords wC7query [wBigTxt]
    ∧ wBigTxt ∉ (contentSearchTrace wC7query [wBigTxt]).2 := by
  refine ⟨by decide, by decide, by decide⟩

/-- C7 (amended): the content-keyword strategy returns exactly the files
with an allow-listed text extension, size greater than 0 and *strictly
less than* 1 MiB, whose lowercased decoded content contains the query;
and the files it opens are exactly those passing the extension/size
guard — any file at or over 1 MiB or outside the allow-list is never
opened. -/
theorem content_search_filter_and_reads (q : Str) (files : List FileEntry) :
    searchByContentKeywords q files = files.filter (amendedTextPred q)
    ∧ (contentSearchTrace q files).2 = files.filter textGuard := by
  constructor
  · rw [searchByContentKeywords, contentTrace_fst]
    rfl
  · exact contentTrace_snd q files

/-- C8: the three keyword-bucket strategies honor only their first
matching bucket: the first matching type keyword (in dictionary order)
fixes the single searched category; when recent- and old-bucket keywords
both occur, only the 7-day recent branch fires; when large- and
small-bucket keywords both occur, only the >10 MiB large branch fires. -/
theorem first_bucket_wins (q : Str) (files : List FileEntry) (now : Int) :
    (∀ k c pre post, typeKeywords = pre ++ (k, c) :: post →
        occursIn k q = true → (∀ p ∈ pre, occursIn p.1 q = false) →
        searchByFileType q files =
          files.filter (fun f =>
            decide (0 < f.size) && decide (toLowerL f.ext ∈ lookupExts c)))
    ∧ ((∃ w ∈ recentWords, occursIn w q = true) →
        (∃ w ∈ oldWords, occursIn w q = true) →
        searchByDateContext q files now =
          files.filter (fun f =>
            decide (0 < f.size) && decide (now - 7 * 86400 < f.mtime)))
    ∧ ((∃ w ∈ largeWords, occursIn w q = true) →
        (∃ w ∈ smallWords, occursIn w q = true) →
        searchBySizeContext q files =
          files.filter (fun f => decide (10485760 < f.size))) := by
  refine ⟨?_, ?_, ?_⟩
  · intro k c pre post htk hk hpre
    have hfind : typeKeywords.find? (fun kc => occursIn kc.1 q) =
        some (k, c) := by
      rw [htk]
      exact find?_first pre post hpre hk
    simp only [searchByFileType, hfind]
  · rintro ⟨w, hw, hocc⟩ _
    have hany : recentWords.any (fun w => occursIn w q) = true :=
      List.any_eq_true.mpr ⟨w, hw, hocc⟩
    simp only [searchByDateContext, hany, if_true]
  · rintro ⟨w, hw, hocc⟩ _
    have hany : largeWords.any (fun w => occursIn w q) = true :=
      List.any_eq_true.mpr ⟨w, hw, hocc⟩
    simp only [searchBySizeContext, hany, if_true]

/-- C8 witness: for a query containing `new`, `old`, `large`, `small`,
`photo` and `movie`, only the images category, the recent bucket and the
large bucket fire. -/
theorem first_bucket_wins_witness :
    searchByFileType wC8query wC8files = [wJpg]
    ∧ searchByDateContext wC8query wC8files wC8now = [wJpg]
    ∧ searchBySizeContext wC8query wC8files = [wBigBin] := by
  have h := first_bucket_wins wC8query wC8files wC8now
  refine ⟨?_, ?_, ?_⟩
  · exact (h.1 "photo".data "images".data [] (typeKeywords.drop 1)
      (by decide) (by decide) (by simp)).trans (by decide)
  · exact (h.2.1 ⟨"new".data, by decide, by decide⟩
      ⟨"old".data, by decide, by decide⟩).trans (by decide)
  · exact (h.2.2 ⟨"large".data, by decide, by decide⟩
      ⟨"small".data, by decide, by decide⟩).trans (by decide)

/-- C9 counterexample: in the filename strategy a single file whose
`stat` fails (vanished between listing and stat) aborts the whole search
with an error — there is no per-file handler there, contradicting "the
enclosing search never fails as a whole". -/
theorem filename_search_aborts_on_stat_error :
    searchByFilenameE "report".data [wBadStat, wGoodStat] =
      Except.error () := rfl

/-- C9 (amended): during analysis a per-file stat failure only skips that
file and the analysis continues over the rest; during content search a
per-file read failure only skips that file; but a stat failure inside the
search strategies propagates and aborts the strategy. -/
theorem per_file_errors_skipped_in_analysis (q : Str) (raws : List RawFile) :
    analyzeObserved raws =
      (raws.filter (fun r => r.statOk && decide (0 < r.entry.size))).map
        (fun r => r.entry)
    ∧ ((∀ r ∈ raws, r.statOk = true) →
        contentSearchE q raws = Except.ok
          ((raws.filter (fun r => textGuard r.entry && r.readOk &&
            occursIn q (toLowerL r.entry.content))).map (fun r => r.entry))) :=
  ⟨analyzeObserved_eq raws, contentSearchE_ok q raws⟩

/-- C9 amended witness: a failing read only skips that one file; the
other text file is still found. -/
theorem per_file_errors_skipped_witness :
    contentSearchE "hello".data [wBadRead, wGoodRead] =
      Except.ok [wGoodRead.entry] := by
  rw [(per_file_errors_skipped_in_analysis "hello".data
    [wBadRead, wGoodRead]).2 (by decide)]
  exact congrArg Except.ok (by decide)

/-- C10: with the empty query the filename strategy matches every
non-empty file under the existing roots; such a file cannot be an exact
basename match, gets no word bonus, receives exactly `5` plus recency and
preference bonuses, hence scores at least 5, survives the positive-score
filter, and appears in the final ranked search output. -/
theorem empty_query_returns_everything (roots : List Root)
    (prefs : PrefTable) (now : Int) (e : FileEntry)
    (he : e ∈ scanFiles roots) (hz : 0 < e.size) (hn : e.name ≠ [])
    (hconf : ∀ c p, prefs c = some p → 0 ≤ p.confidence)
    (huniq : ∀ x ∈ scanFiles roots, fullPath x = fullPath e → x = e) :
    e ∈ searchByFilename [] (scanFiles roots)
    ∧ scoreOf now prefs [] e =
        5 + (if now - e.mtime < 7 * 86400 then (1:ℚ)
             else if now - e.mtime < 30 * 86400 then 1 / 2 else 0)
          + prefBonus prefs e
    ∧ (5:ℚ) ≤ scoreOf now prefs [] e
    ∧ (e, scoreOf now prefs [] e) ∈ smartSearch now prefs [] roots := by
  have hmem1 : e ∈ searchByFilename [] (scanFiles roots) :=
    mem_searchByFilename.mpr ⟨he, hz, occursIn_nil_needle _⟩
  have hlow : ¬([] : Str) = toLowerL e.name := by
    intro h0
    exact hn (List.map_eq_nil_iff.mp h0.symm)
  have heq : scoreOf now prefs [] e =
      5 + (if now - e.mtime < 7 * 86400 then (1:ℚ)
           else if now - e.mtime < 30 * 86400 then 1 / 2 else 0)
        + prefBonus prefs e := by
    rw [scoreOf_eq_claimScore, claimScore, if_neg hlow,
      if_pos (occursIn_nil_needle _),
      show wsSplit ([] : Str) = [] from rfl]
    norm_num
  have h5 : (5:ℚ) ≤ scoreOf now prefs [] e := by
    rw [heq]
    have hr := recencyTerm_bounds (now - e.mtime)
    linarith [hr.1, prefBonus_nonneg hconf e]
  have hpos : 0 < scoreOf now prefs [] e :=
    lt_of_lt_of_le (by norm_num) h5
  have hcand : e ∈ allCandidates now [] roots := by
    simp only [allCandidates, List.mem_append]
    exact Or.inl (Or.inl (Or.inl (Or.inl hmem1)))
  have hmerged : e ∈ mergedCandidates now [] roots := by
    rcases exists_dedupBy_key fullPath (allCandidates now [] roots)
      [] hcand (by simp) with ⟨y, hy, hky⟩
    have hye : y = e :=
      huniq y (allCandidates_subset (dedupBy_subset _ _ hy)) hky
    exact hye ▸ hy
  refine ⟨hmem1, heq, h5, ?_⟩
  show (e, scoreOf now prefs [] e) ∈
    rank now prefs [] (mergedCandidates now [] roots)
  exact mem_rank_iff.mpr ⟨hmerged, rfl, hpos⟩

/-- C10 witness: a single non-empty file is returned by the empty-query
search. -/
theorem empty_query_returns_everything_witness :
    (wNotes, scoreOf 0 noPrefs [] wNotes) ∈
      smartSearch 0 noPrefs [] wC10roots :=
  (empty_query_returns_everything wC10roots noPrefs 0 wNotes (by decide)
    (by decide) (by decide) (fun c p h => nomatch h) (by decide)).2.2.2

end ChuckFI
